import Mathlib

/-!
# Verification of the QG_demo quark/gluon classification workflow

Shallow embedding of the notebook `QG_demo.ipynb`: feature selection and
cleaning, train/test split, balanced class weighting, the dense network's
forward pass, prediction-column augmentation and the ROC/AUC evaluation.

Data cells are modelled over `ℚ` (missing values as `Option ℚ`); the network
forward pass is modelled over `ℝ`.
-/

namespace QGDemo

/-- One row of the raw CSV as loaded into `data`: the three feature columns
`QG_mult`, `QG_ptD`, `QG_axis2`, the label column `isPhysG`, and the remaining
columns of the file (not used by the workflow).  A missing cell (NaN) is
`none`. -/
structure DataRow where
  QG_mult : Option ℚ
  QG_ptD : Option ℚ
  QG_axis2 : Option ℚ
  isPhysG : Option ℚ
  otherCols : List (Option ℚ)
deriving DecidableEq, Repr

/-- One row of the reduced frame `df_`: the three selected features plus the
`target` column. -/
structure Row where
  QG_mult : Option ℚ
  QG_ptD : Option ℚ
  QG_axis2 : Option ℚ
  target : Option ℚ
deriving DecidableEq, Repr

/-- `df_ = data[['QG_mult','QG_ptD','QG_axis2']].copy()` followed by
`df_['target'] = data['isPhysG']`: keep the three feature columns and copy the
label column verbatim into `target`. -/
def selectFeatures (data : List DataRow) : List Row :=
  data.map (fun d => { QG_mult := d.QG_mult, QG_ptD := d.QG_ptD,
                       QG_axis2 := d.QG_axis2, target := d.isPhysG })

/-- A row is complete when none of its four cells is missing. -/
def Row.complete (r : Row) : Bool :=
  r.QG_mult.isSome && r.QG_ptD.isSome && r.QG_axis2.isSome && r.target.isSome

/-- `df_.dropna()`: drop every row that has a missing value in any column of
the frame. -/
def dropna (df : List Row) : List Row :=
  df.filter Row.complete

/-- The whole cleaning cell: select the three features and the label, then
drop incomplete rows. -/
def cleaner (data : List DataRow) : List Row :=
  dropna (selectFeatures data)

end QGDemo

namespace QGDemo

/-- C1: Every row of the cleaner's output has all three feature cells and the
label cell present, and any input row with a missing feature cell does not
survive into the output. -/
theorem cleaner_drops_missing (data : List DataRow) :
    (∀ r ∈ cleaner data,
        r.QG_mult.isSome ∧ r.QG_ptD.isSome ∧ r.QG_axis2.isSome ∧ r.target.isSome) ∧
    (∀ d ∈ data, (d.QG_mult = none ∨ d.QG_ptD = none ∨ d.QG_axis2 = none) →
        ({ QG_mult := d.QG_mult, QG_ptD := d.QG_ptD,
           QG_axis2 := d.QG_axis2, target := d.isPhysG } : Row) ∉ cleaner data) := by
  constructor
  · intro r hr
    have hc : r.complete = true := List.of_mem_filter hr
    simp only [Row.complete, Bool.and_eq_true] at hc
    exact ⟨hc.1.1.1, hc.1.1.2, hc.1.2, hc.2⟩
  · intro d _hd hmiss hmem
    have hc := List.of_mem_filter hmem
    simp only [Row.complete, Bool.and_eq_true] at hc
    rcases hmiss with h | h | h
    · rw [h] at hc; simp at hc
    · rw [h] at hc; simp at hc
    · rw [h] at hc; simp at hc

/-- Witness for C1 at a concrete dataset: a one-row dataset whose `QG_ptD`
cell is missing produces an output not containing that row. -/
theorem cleaner_drops_missing_witness :
    ({ QG_mult := some 3, QG_ptD := none, QG_axis2 := some (1/10),
       target := some 1 } : Row) ∉
      cleaner [{ QG_mult := some 3, QG_ptD := none, QG_axis2 := some (1/10),
                 isPhysG := some 1, otherCols := [] }] :=
  (cleaner_drops_missing
      [{ QG_mult := some 3, QG_ptD := none, QG_axis2 := some (1/10),
         isPhysG := some 1, otherCols := [] }]).2
    _ (List.mem_singleton.mpr rfl) (Or.inr (Or.inl rfl))

/-- C2 counterexample: the cleaner copies the label column verbatim, so an
input whose label is 2 yields an output row whose label is neither 0 nor 1. -/
theorem cleaner_label_not_coerced :
    ∃ r ∈ cleaner [{ QG_mult := some 3, QG_ptD := some 1,
                     QG_axis2 := some 1, isPhysG := some 2,
                     otherCols := [] }],
      r.target ≠ some 0 ∧ r.target ≠ some 1 := by
  refine ⟨{ QG_mult := some 3, QG_ptD := some 1, QG_axis2 := some 1,
            target := some 2 }, ?_, ?_, ?_⟩
  · simp [cleaner, selectFeatures, dropna, Row.complete]
  · intro h; exact absurd (Option.some.inj h) (by norm_num)
  · intro h; exact absurd (Option.some.inj h) (by norm_num)

/-- C2 amended: the cleaner passes the label through unchanged, so the output
labels are binary whenever every input label is missing, 0 or 1. -/
theorem cleaner_label_passthrough (data : List DataRow)
    (h : ∀ d ∈ data, d.isPhysG = none ∨ d.isPhysG = some 0 ∨ d.isPhysG = some 1) :
    ∀ r ∈ cleaner data, r.target = some 0 ∨ r.target = some 1 := by
  intro r hr
  have hmem : r ∈ selectFeatures data := List.mem_of_mem_filter hr
  have hc : r.complete = true := List.of_mem_filter hr
  simp only [selectFeatures, List.mem_map] at hmem
  obtain ⟨d, hd, rfl⟩ := hmem
  simp only [Row.complete, Bool.and_eq_true] at hc
  rcases h d hd with h0 | h1 | h2
  · exfalso; have := hc.2; rw [h0] at this; simp at this
  · exact Or.inl h1
  · exact Or.inr h2

/-- Witness for C2 amended at a concrete dataset with binary labels and a
concrete surviving row. -/
theorem cleaner_label_passthrough_witness :
    ({ QG_mult := some 3, QG_ptD := some 1, QG_axis2 := some 1,
       target := some 1 } : Row).target = some 0 ∨
    ({ QG_mult := some 3, QG_ptD := some 1, QG_axis2 := some 1,
       target := some 1 } : Row).target = some 1 :=
  cleaner_label_passthrough
    [{ QG_mult := some 3, QG_ptD := some 1, QG_axis2 := some 1,
       isPhysG := some 1, otherCols := [] }]
    (by intro d hd; rw [List.mem_singleton] at hd
        subst hd; exact Or.inr (Or.inr rfl))
    _ (by simp [cleaner, selectFeatures, dropna, Row.complete])

/-- C9: the cleaning operation (dropping rows with missing values) is
idempotent: re-running `dropna` on its own output changes nothing. -/
theorem dropna_idempotent (df : List Row) : dropna (dropna df) = dropna df := by
  simp [dropna, List.filter_filter]

/-- sklearn's test-set size for a fractional `test_size = 0.15` on `n` rows:
`ceil(0.15 * n)`, written in natural-number arithmetic as `(3*n + 19) / 20`. -/
def nTest (n : ℕ) : ℕ := (3 * n + 19) / 20

/-- Modelled from the spec: the seeded pseudo-random shuffle inside
`train_test_split` ("assigned via a fixed pseudo-random seed for
reproducibility").  The concrete NumPy `RandomState` permutation is library
code external to this repository, so it is modelled as a seed-determined
rotation of the index list — a permutation of `range n` that is a pure
function of the seed. -/
def shuffleIndices (seed n : ℕ) : List ℕ := (List.range n).rotate seed

/-- Reindex the frame by a list of row indices (out-of-range indices are
skipped; the shuffles used here only produce in-range indices). -/
def reorder (df : List Row) (idx : List ℕ) : List Row :=
  idx.filterMap (fun i => df[i]?)

/-- `train_test_split(df_, test_size=0.15, random_state=42)`: shuffle the row
indices with the seed (`random_state` when given, otherwise the ambient global
NumPy seed), put the first `ceil(0.15*n)` shuffled rows in the test set and
the remaining rows in the train set.  Returns `(train, test)`. -/
def train_test_split (df : List Row) (randomState : Option ℕ) (globalSeed : ℕ) :
    List Row × List Row :=
  let n := df.length
  let t := nTest n
  let perm := shuffleIndices (randomState.getD globalSeed) n
  (reorder df (perm.drop t), reorder df (perm.take t))

/-- The notebook's split call, `train_test_split(df_, test_size=0.15,
random_state=42)`, run under whatever ambient global seed the process
happens to have. -/
def splitStage (globalSeed : ℕ) (df : List Row) : List Row × List Row :=
  train_test_split df (some 42) globalSeed

theorem shuffleIndices_perm (seed n : ℕ) :
    List.Perm (shuffleIndices seed n) (List.range n) :=
  List.rotate_perm _ _

theorem shuffleIndices_lt (seed n : ℕ) : ∀ i ∈ shuffleIndices seed n, i < n :=
  fun j hj => List.mem_range.mp ((shuffleIndices_perm seed n).mem_iff.mp hj)

theorem shuffleIndices_nodup (seed n : ℕ) : (shuffleIndices seed n).Nodup :=
  (shuffleIndices_perm seed n).nodup_iff.mpr (List.nodup_range n)

theorem shuffleIndices_length (seed n : ℕ) : (shuffleIndices seed n).length = n := by
  rw [(shuffleIndices_perm seed n).length_eq, List.length_range]

theorem nTest_le (n : ℕ) : nTest n ≤ n := by
  unfold nTest; omega

theorem reorder_length (df : List Row) :
    ∀ idx : List ℕ, (∀ i ∈ idx, i < df.length) → (reorder df idx).length = idx.length := by
  intro idx
  induction idx with
  | nil => intro _; rfl
  | cons a l ih =>
    intro h
    have ha : a < df.length := h a (List.mem_cons_self a l)
    have ht : ∀ i ∈ l, i < df.length := fun i hi => h i (List.mem_cons_of_mem a hi)
    simp only [reorder, List.filterMap_cons, List.getElem?_eq_getElem ha, List.length_cons]
    exact congrArg (· + 1) (ih ht)

theorem filterMap_getElem?_range (df : List Row) :
    (List.range df.length).filterMap (fun i => df[i]?) = df := by
  induction df with
  | nil => rfl
  | cons a tl ih =>
    rw [List.length_cons, List.range_succ_eq_map, List.filterMap_cons]
    simp only [List.getElem?_cons_zero]
    rw [List.filterMap_map]
    have hco : ((fun i => (a :: tl)[i]?) ∘ (· + 1)) = fun i => tl[i]? := by
      funext i; simp
    rw [hco, ih]

theorem reorder_perm (df : List Row) (idx : List ℕ)
    (h : List.Perm idx (List.range df.length)) : List.Perm (reorder df idx) df := by
  have h2 := h.filterMap (fun i => df[i]?)
  rw [filterMap_getElem?_range] at h2
  exact h2

/-- C3 amended: the split returns train and test lists that together are a
permutation of the cleaned frame (each row position lands in exactly one
side, so the occupied index positions are disjoint), their sizes sum to the
frame's size, and the test set holds `⌈0.15·n⌉` rows — exactly 15% only when
`n` is a multiple of 20. -/
theorem splitStage_partition (g : ℕ) (df : List Row) :
    List.Perm ((splitStage g df).1 ++ (splitStage g df).2) df ∧
    (splitStage g df).1.length + (splitStage g df).2.length = df.length ∧
    (splitStage g df).2.length = nTest df.length ∧
    List.Disjoint ((shuffleIndices 42 df.length).take (nTest df.length))
      ((shuffleIndices 42 df.length).drop (nTest df.length)) := by
  have hsplit : splitStage g df =
      (reorder df ((shuffleIndices 42 df.length).drop (nTest df.length)),
       reorder df ((shuffleIndices 42 df.length).take (nTest df.length))) := rfl
  have hp := shuffleIndices_perm 42 df.length
  have hlt := shuffleIndices_lt 42 df.length
  have hlen := shuffleIndices_length 42 df.length
  have htake_lt : ∀ i ∈ (shuffleIndices 42 df.length).take (nTest df.length), i < df.length :=
    fun i hi => hlt i (List.mem_of_mem_take hi)
  have hdrop_lt : ∀ i ∈ (shuffleIndices 42 df.length).drop (nTest df.length), i < df.length :=
    fun i hi => hlt i (List.mem_of_mem_drop hi)
  have htakelen : ((shuffleIndices 42 df.length).take (nTest df.length)).length =
      nTest df.length := by
    rw [List.length_take, hlen]
    have := nTest_le df.length
    omega
  have hdroplen : ((shuffleIndices 42 df.length).drop (nTest df.length)).length =
      df.length - nTest df.length := by
    rw [List.length_drop, hlen]
  refine ⟨?_, ?_, ?_, ?_⟩
  · rw [hsplit]
    have happ : reorder df ((shuffleIndices 42 df.length).drop (nTest df.length)) ++
        reorder df ((shuffleIndices 42 df.length).take (nTest df.length)) =
        reorder df ((shuffleIndices 42 df.length).drop (nTest df.length) ++
          (shuffleIndices 42 df.length).take (nTest df.length)) :=
      (List.filterMap_append _ _ _).symm
    rw [happ]
    refine reorder_perm df _ ?_
    have h1 : List.Perm
        ((shuffleIndices 42 df.length).drop (nTest df.length) ++
          (shuffleIndices 42 df.length).take (nTest df.length))
        ((shuffleIndices 42 df.length).take (nTest df.length) ++
          (shuffleIndices 42 df.length).drop (nTest df.length)) :=
      List.perm_append_comm
    rw [List.take_append_drop] at h1
    exact h1.trans hp
  · have e1 : (splitStage g df).1 =
        reorder df ((shuffleIndices 42 df.length).drop (nTest df.length)) :=
      congrArg Prod.fst hsplit
    have e2 : (splitStage g df).2 =
        reorder df ((shuffleIndices 42 df.length).take (nTest df.length)) :=
      congrArg Prod.snd hsplit
    rw [e1, e2, reorder_length df _ hdrop_lt, reorder_length df _ htake_lt,
      htakelen, hdroplen]
    have := nTest_le df.length
    omega
  · have e2 : (splitStage g df).2 =
        reorder df ((shuffleIndices 42 df.length).take (nTest df.length)) :=
      congrArg Prod.snd hsplit
    rw [e2, reorder_length df _ htake_lt, htakelen]
  · exact List.disjoint_take_drop (shuffleIndices_nodup 42 df.length) le_rfl

/-- C3 counterexample: on a cleaned frame of 10 rows the test set holds
`⌈0.15·10⌉ = 2` rows, not 15% of the rows (which would be 1.5 rows). -/
theorem split_test_size_cex :
    ¬ (((splitStage 0 (List.replicate 10
          ({ QG_mult := some 3, QG_ptD := some 1, QG_axis2 := some 1,
             target := some 1 } : Row))).2.length : ℚ) =
        (15 / 100) * ((List.replicate 10
          ({ QG_mult := some 3, QG_ptD := some 1, QG_axis2 := some 1,
             target := some 1 } : Row)).length : ℚ)) := by
  have h2 : (splitStage 0 (List.replicate 10
      ({ QG_mult := some 3, QG_ptD := some 1, QG_axis2 := some 1,
         target := some 1 } : Row))).2.length = 2 := by decide
  rw [h2, List.length_replicate]
  norm_num

/-- C4: the notebook passes `random_state=42` to `train_test_split`, so two
runs of the split stage on the same cleaned frame produce identical train and
test partitions regardless of the ambient global random state of the
process. -/
theorem splitStage_deterministic (g₁ g₂ : ℕ) (df : List Row) :
    splitStage g₁ df = splitStage g₂ df := rfl

/-- `np.unique(train_y)`: the distinct label values, sorted ascending. -/
def npUnique (y : List ℚ) : List ℚ := List.insertionSort (· ≤ ·) y.dedup

/-- `class_weight.compute_class_weight(class_weight='balanced',
classes=np.unique(train_y), y=train_y)`: one weight per distinct class `c`,
namely `n_samples / (n_classes * count(c))`. -/
def compute_class_weight (y : List ℚ) : List ℚ :=
  (npUnique y).map (fun c =>
    (y.length : ℚ) / (((npUnique y).length : ℚ) * (y.count c : ℚ)))

/-- `class_weights = {i : class_weights[i] for i in range(2)}`: build the
weight mapping for classes 0 and 1 by position; indexing position 1 of a
shorter weight array raises `IndexError`, modelled as `none`. -/
def class_weights (y : List ℚ) : Option (ℚ × ℚ) :=
  match (compute_class_weight y)[0]?, (compute_class_weight y)[1]? with
  | some w0, some w1 => some (w0, w1)
  | _, _ => none

theorem npUnique_binary (y : List ℚ) (h : ∀ x ∈ y, x = 0 ∨ x = 1)
    (h0 : (0:ℚ) ∈ y) (h1 : (1:ℚ) ∈ y) : npUnique y = [0, 1] := by
  have hperm : List.Perm (npUnique y) y.dedup := List.perm_insertionSort _ _
  have hsorted : (npUnique y).Sorted (· ≤ ·) := List.sorted_insertionSort _ _
  have hnd : (npUnique y).Nodup := hperm.nodup_iff.mpr (List.nodup_dedup y)
  have hmem : ∀ x : ℚ, x ∈ npUnique y ↔ x ∈ y := fun x => by
    rw [hperm.mem_iff, List.mem_dedup]
  have h0s : (0:ℚ) ∈ npUnique y := (hmem 0).mpr h0
  have h1s : (1:ℚ) ∈ npUnique y := (hmem 1).mpr h1
  have hsub : ∀ x ∈ npUnique y, x = 0 ∨ x = 1 := fun x hx => h x ((hmem x).mp hx)
  have hfin : (npUnique y).toFinset = ({0, 1} : Finset ℚ) := by
    ext x
    simp only [List.mem_toFinset, Finset.mem_insert, Finset.mem_singleton]
    constructor
    · exact fun hx => hsub x hx
    · rintro (rfl | rfl)
      · exact h0s
      · exact h1s
  have hlen : (npUnique y).length = 2 := by
    rw [← List.toFinset_card_of_nodup hnd, hfin]
    rw [Finset.card_insert_of_not_mem (by norm_num), Finset.card_singleton]
  obtain ⟨a, b, hab⟩ := List.length_eq_two.mp hlen
  rw [hab] at hsorted hnd h0s h1s
  have hle : a ≤ b := by
    rw [List.sorted_cons] at hsorted
    exact hsorted.1 b (List.mem_singleton_self b)
  rw [hab]
  rcases List.mem_pair.mp h0s with ha0 | hb0
  · rcases List.mem_pair.mp h1s with ha1 | hb1
    · exact absurd (ha0.trans ha1.symm) (by norm_num)
    · rw [← ha0, ← hb1]
  · rcases List.mem_pair.mp h1s with ha1 | hb1
    · exfalso
      rw [← ha1, ← hb0] at hle
      norm_num at hle
    · exact absurd (hb0.trans hb1.symm) (by norm_num)

theorem count_pos_of_mem {y : List ℚ} {c : ℚ} (h : c ∈ y) : 0 < y.count c :=
  List.count_pos_iff.mpr h

theorem compute_class_weight_binary (y : List ℚ) (h : ∀ x ∈ y, x = 0 ∨ x = 1)
    (h0 : (0:ℚ) ∈ y) (h1 : (1:ℚ) ∈ y) :
    compute_class_weight y =
      [(y.length : ℚ) / (2 * (y.count 0 : ℚ)),
       (y.length : ℚ) / (2 * (y.count 1 : ℚ))] := by
  unfold compute_class_weight
  rw [npUnique_binary y h h0 h1]
  norm_num

/-- C5: on a training label column containing both classes, the computed
class weights exist, their ratios are the inverse of the class frequency
ratios — `w0/w1 = count(1)/count(0)` and `w1/w0 = count(0)/count(1)` — and
whenever the class frequencies differ, the minority class receives a strictly
larger weight than the majority class. -/
theorem class_weights_balanced (y : List ℚ)
    (h : ∀ x ∈ y, x = 0 ∨ x = 1) (h0 : (0:ℚ) ∈ y) (h1 : (1:ℚ) ∈ y) :
    ∃ w0 w1, class_weights y = some (w0, w1) ∧
      w0 / w1 = (y.count 1 : ℚ) / (y.count 0 : ℚ) ∧
      w1 / w0 = (y.count 0 : ℚ) / (y.count 1 : ℚ) ∧
      (y.count 0 < y.count 1 → w1 < w0) ∧
      (y.count 1 < y.count 0 → w0 < w1) := by
  have hc := compute_class_weight_binary y h h0 h1
  have hc0 : 0 < y.count 0 := count_pos_of_mem h0
  have hc1 : 0 < y.count 1 := count_pos_of_mem h1
  have hn : 0 < y.length := lt_of_lt_of_le hc0 (List.count_le_length _ _)
  have hc0q : (0:ℚ) < (y.count 0 : ℚ) := by exact_mod_cast hc0
  have hc1q : (0:ℚ) < (y.count 1 : ℚ) := by exact_mod_cast hc1
  have hnq : (0:ℚ) < (y.length : ℚ) := by exact_mod_cast hn
  refine ⟨(y.length : ℚ) / (2 * (y.count 0 : ℚ)),
          (y.length : ℚ) / (2 * (y.count 1 : ℚ)), ?_, ?_, ?_, ?_, ?_⟩
  · unfold class_weights
    rw [hc]
    rfl
  · have h0ne : (y.count 0 : ℚ) ≠ 0 := ne_of_gt hc0q
    have h1ne : (y.count 1 : ℚ) ≠ 0 := ne_of_gt hc1q
    have hnne : (y.length : ℚ) ≠ 0 := ne_of_gt hnq
    field_simp
    ring
  · have h0ne : (y.count 0 : ℚ) ≠ 0 := ne_of_gt hc0q
    have h1ne : (y.count 1 : ℚ) ≠ 0 := ne_of_gt hc1q
    have hnne : (y.length : ℚ) ≠ 0 := ne_of_gt hnq
    field_simp
    ring
  · intro hlt
    have hltq : (y.count 0 : ℚ) < (y.count 1 : ℚ) := by exact_mod_cast hlt
    exact div_lt_div_of_pos_left hnq (by linarith) (by linarith)
  · intro hlt
    have hltq : (y.count 1 : ℚ) < (y.count 0 : ℚ) := by exact_mod_cast hlt
    exact div_lt_div_of_pos_left hnq (by linarith) (by linarith)

/-- Witness for C5 on the concrete label column `[0, 1, 1]`. -/
theorem class_weights_balanced_witness :
    ∃ w0 w1, class_weights [0, 1, 1] = some (w0, w1) ∧
      w0 / w1 = (List.count 1 [0, 1, 1] : ℚ) / (List.count 0 [0, 1, 1] : ℚ) ∧
      w1 / w0 = (List.count 0 [0, 1, 1] : ℚ) / (List.count 1 [0, 1, 1] : ℚ) ∧
      (List.count 0 [0, 1, 1] < List.count 1 [0, 1, 1] → w1 < w0) ∧
      (List.count 1 [0, 1, 1] < List.count 0 [0, 1, 1] → w0 < w1) :=
  class_weights_balanced [0, 1, 1] (by decide) (by decide) (by decide)

theorem nodup_const_length_le_one (l : List ℚ) (c : ℚ)
    (hnd : l.Nodup) (hc : ∀ x ∈ l, x = c) : l.length ≤ 1 := by
  match l with
  | [] => simp
  | [a] => simp
  | a :: b :: t =>
    exfalso
    rw [List.nodup_cons] at hnd
    have ha : a = c := hc a (List.mem_cons_self _ _)
    have hb : b = c := hc b (List.mem_cons_of_mem _ (List.mem_cons_self _ _))
    exact hnd.1 (by rw [ha, ← hb]; exact List.mem_cons_self _ _)

/-- C6: if one of the two label classes is entirely absent from the training
labels, `np.unique` yields fewer than two classes, the weight array has fewer
than two entries, and the dict comprehension `{i : class_weights[i] for i in
range(2)}` fails with an `IndexError` (modelled as `none`) instead of
producing a weight mapping. -/
theorem class_weights_single_class (y : List ℚ)
    (h : ∀ x ∈ y, x = 0 ∨ x = 1) (habs : (0:ℚ) ∉ y ∨ (1:ℚ) ∉ y) :
    class_weights y = none := by
  have hperm : List.Perm (npUnique y) y.dedup := List.perm_insertionSort _ _
  have hnd : (npUnique y).Nodup := hperm.nodup_iff.mpr (List.nodup_dedup y)
  have hmem : ∀ x : ℚ, x ∈ npUnique y ↔ x ∈ y := fun x => by
    rw [hperm.mem_iff, List.mem_dedup]
  have hlen : (npUnique y).length ≤ 1 := by
    rcases habs with h0 | h1
    · refine nodup_const_length_le_one _ 1 hnd (fun x hx => ?_)
      rcases h x ((hmem x).mp hx) with rfl | rfl
      · exact absurd ((hmem 0).mp hx) h0
      · rfl
    · refine nodup_const_length_le_one _ 0 hnd (fun x hx => ?_)
      rcases h x ((hmem x).mp hx) with rfl | rfl
      · rfl
      · exact absurd ((hmem 1).mp hx) h1
  have hcl : (compute_class_weight y).length ≤ 1 := by
    unfold compute_class_weight
    rw [List.length_map]
    exact hlen
  have h1n : (compute_class_weight y)[1]? = none := List.getElem?_eq_none hcl
  unfold class_weights
  rw [h1n]
  cases (compute_class_weight y)[0]? <;> rfl

/-- Witness for C6 on the concrete label column `[1, 1]` (class 0 absent). -/
theorem class_weights_single_class_witness :
    class_weights [1, 1] = none :=
  class_weights_single_class [1, 1] (by decide) (Or.inl (by decide))

noncomputable section

/-- Rectified-linear activation, `activation='relu'`. -/
def relu (x : ℝ) : ℝ := max 0 x

/-- Logistic sigmoid, `activation='sigmoid'`. -/
def sigmoid (x : ℝ) : ℝ := 1 / (1 + Real.exp (-x))

/-- Dot product of a weight vector with an input vector. -/
def dot (w x : List ℝ) : ℝ := ((w.zip x).map (fun p => p.1 * p.2)).sum

/-- One `Dense` layer: each row of `W` is a unit's weight vector, `b` the
biases, `act` the activation applied to the affine output. -/
def dense (W : List (List ℝ)) (b : List ℝ) (act : ℝ → ℝ) (x : List ℝ) : List ℝ :=
  (W.zip b).map (fun p => act (dot p.1 x + p.2))

/-- Trainable parameters of the notebook's network: the three
`Dense(50, activation='relu')` hidden layers and the final
`Dense(1, activation='sigmoid')` output unit. -/
structure NetParams where
  W1 : List (List ℝ)
  b1 : List ℝ
  W2 : List (List ℝ)
  b2 : List ℝ
  W3 : List (List ℝ)
  b3 : List ℝ
  w4 : List ℝ
  b4 : ℝ

/-- The model's forward pass on one feature row,
`Input → Dense(50,relu) → Dense(50,relu) → Dense(50,relu) →
Dense(1,sigmoid)`: a sigmoid applied to the affine output of the last hidden
layer.  The parameters are arbitrary — whatever values training froze. -/
def modelPredict (p : NetParams) (x : List ℝ) : ℝ :=
  let a1 := dense p.W1 p.b1 relu x
  let a2 := dense p.W2 p.b2 relu a1
  let a3 := dense p.W3 p.b3 relu a2
  sigmoid (dot p.w4 a3 + p.b4)

end

theorem sigmoid_nonneg (t : ℝ) : 0 ≤ sigmoid t := by
  unfold sigmoid
  positivity

theorem sigmoid_le_one (t : ℝ) : sigmoid t ≤ 1 := by
  unfold sigmoid
  rw [div_le_one (by positivity)]
  have := Real.exp_pos (-t)
  linarith

/-- C7: for any trained parameter values and any input feature row, the
model's predicted score lies in the closed interval `[0, 1]` — the output
unit is a sigmoid. -/
theorem modelPredict_unit_interval (p : NetParams) (x : List ℝ) :
    0 ≤ modelPredict p x ∧ modelPredict p x ≤ 1 := by
  unfold modelPredict
  exact ⟨sigmoid_nonneg _, sigmoid_le_one _⟩

/-- Scores of the rows whose true label is the positive class 1. -/
def posScores (labels scores : List ℚ) : List ℚ :=
  ((labels.zip scores).filter (fun p => p.1 == 1)).map Prod.snd

/-- Scores of the rows whose true label is not the positive class. -/
def negScores (labels scores : List ℚ) : List ℚ :=
  ((labels.zip scores).filter (fun p => p.1 != 1)).map Prod.snd

/-- Modelled from the spec: the `roc_curve`/`auc` evaluation is sklearn
library code external to this repository.  Per the spec, a test set with only
one represented label class makes the ROC rates undefined and surfaces an
`UndefinedMetricWarning` instead of a numeric AUC; otherwise the area under
the empirical ROC curve is returned, computed here by its equivalent
Mann–Whitney form: the fraction of (positive, negative) score pairs ranked
correctly, counting ties as one half. -/
def rocAuc (labels scores : List ℚ) : Except String ℚ :=
  if (posScores labels scores).isEmpty || (negScores labels scores).isEmpty then
    Except.error "UndefinedMetricWarning"
  else
    Except.ok
      ((((posScores labels scores).map (fun s =>
          ((negScores labels scores).filter (fun t => decide (t < s))).length +
            (((negScores labels scores).filter (fun t => t == s)).length : ℚ) / 2)).sum) /
        (((posScores labels scores).length : ℚ) * ((negScores labels scores).length : ℚ)))

/-- C8: when only one label class is represented in the test set — every
label is the positive class, or none is — the ROC/AUC computation surfaces
`UndefinedMetricWarning` instead of returning a numeric AUC. -/
theorem rocAuc_single_class (labels scores : List ℚ)
    (h : (∀ l ∈ labels, l = 1) ∨ (∀ l ∈ labels, l ≠ 1)) :
    rocAuc labels scores = Except.error "UndefinedMetricWarning" := by
  unfold rocAuc
  rcases h with hall | hnone
  · have hneg : negScores labels scores = [] := by
      unfold negScores
      rw [List.map_eq_nil_iff]
      rw [List.filter_eq_nil_iff]
      intro p hp
      have h1 : p.1 = 1 := hall p.1 (List.of_mem_zip hp).1
      simp [h1]
    rw [hneg]
    simp
  · have hpos : posScores labels scores = [] := by
      unfold posScores
      rw [List.map_eq_nil_iff]
      rw [List.filter_eq_nil_iff]
      intro p hp
      have h1 : p.1 ≠ 1 := hnone p.1 (List.of_mem_zip hp).1
      simp [h1]
    rw [hpos]
    simp

/-- Witness for C8 on a concrete all-gluon test set. -/
theorem rocAuc_single_class_witness :
    rocAuc [1, 1] [1/2, 1/4] = Except.error "UndefinedMetricWarning" :=
  rocAuc_single_class [1, 1] [1/2, 1/4] (Or.inl (by decide))

/-- `test.loc[:,'predictions'] = model.predict(...)`: extend each test row
with one new `predictions` value obtained by scoring that row's features;
generic in the scoring function so the real-valued network plugs in. -/
def addPredictions {α : Type} (score : Row → α) (test : List Row) : List (Row × α) :=
  test.map (fun r => (r, score r))

/-- C10: the prediction step only appends a `predictions` column: projecting
the augmented table back onto its row component returns the test table
unchanged (so every row's three feature fields and label field are
untouched), the new column is exactly the per-row scores, and no rows are
added or removed. -/
theorem addPredictions_frame {α : Type} (score : Row → α) (test : List Row) :
    (addPredictions score test).map Prod.fst = test ∧
    (addPredictions score test).map Prod.snd = test.map score ∧
    (addPredictions score test).length = test.length := by
  refine ⟨?_, ?_, ?_⟩
  · simp only [addPredictions, List.map_map]
    exact List.map_id test
  · simp [addPredictions, List.map_map]
  · simp [addPredictions]

end QGDemo
